import Mathlib

/-!
Verification of the QUARK excerpt: `modules/applications/QML/transformations/Transformation.py`,
`modules/applications/optimization/ACL/mappings/ISING.py`, and `devices/HelperClass.py`.

Numeric arrays are shallowly embedded as `List (List ℚ)` (row-major); all of the arithmetic the
claims exercise (division by a power of two, addition of exact halves, copying) is exact in the
floating formats the code uses, so rationals are a faithful carrier.  The final
`astype(np.float32)` of the sample generators is an elementwise rounding applied identically by
both pipelines, so it is not modelled; equivalence and structure statements are about the exact
values the code computes before that cast.
-/

namespace Quark

/-- `itertools.product(range(n), repeat=r)`: all `r`-tuples over `{0, …, n-1}` in lexicographic
order (first coordinate varies slowest), as used by both discretization routines. -/
def productRepeat (n : ℕ) : ℕ → List (List ℕ)
  | 0 => [[]]
  | r + 1 => (List.range n).flatMap (fun c => (productRepeat n r).map (fun rest => c :: rest))

/-- `Transformation.compute_discretization`: `n = 2 ** (n_qubits // n_registered)`, and for the
`k`-th tuple `coords` of the product, row `k` is `[k] ++ (coords / n + 0.5 / n)`. -/
def compute_discretization (n_qubits n_registered : ℕ) : List (List ℚ) :=
  let n : ℕ := 2 ^ (n_qubits / n_registered)
  (productRepeat n n_registered).enum.map
    (fun kc => (kc.1 : ℚ) :: kc.2.map (fun c : ℕ => (c : ℚ) / n + 0.5 / n))

/-- `Transformation.compute_discretization_efficient`: same grid, built by normalising the whole
coordinate array at once (`(coords + 0.5) / n`) and `hstack`-ing a column `arange(n_bins)`. -/
def compute_discretization_efficient (n_qubits n_registers : ℕ) : List (List ℚ) :=
  let n : ℕ := 2 ^ (n_qubits / n_registers)
  let n_bins : ℕ := n ^ n_registers
  let coords := productRepeat n n_registers
  let normalized_coords := coords.map (fun row => row.map (fun c : ℕ => ((c : ℚ) + 0.5) / n))
  List.zipWith (fun (i : ℕ) (row : List ℚ) => (i : ℚ) :: row) (List.range n_bins)
    normalized_coords

/-- The `r` base-`n` digits of `k`, most significant first.  The `k`-th tuple of
`product(range(n), repeat=r)` in lexicographic order is exactly this digit string. -/
def digitsBE (n : ℕ) : ℕ → ℕ → List ℕ
  | 0, _ => []
  | r + 1, k => k / n ^ r :: digitsBE n r (k % n ^ r)

theorem productRepeat_length (n r : ℕ) : (productRepeat n r).length = n ^ r := by
  induction r with
  | zero => rfl
  | succ r ih =>
    rw [productRepeat, List.length_flatMap]
    simp [Function.comp_def, ih, pow_succ, Nat.mul_comm]

theorem productRepeat_mem_length {n r : ℕ} {coords : List ℕ}
    (h : coords ∈ productRepeat n r) : coords.length = r := by
  induction r generalizing coords with
  | zero => simp [productRepeat] at h; simp [h]
  | succ r ih =>
    simp [productRepeat] at h
    obtain ⟨c, _, rest, hrest, rfl⟩ := h
    simp [ih hrest]

theorem productRepeat_mem_lt {n r : ℕ} {coords : List ℕ}
    (h : coords ∈ productRepeat n r) : ∀ c ∈ coords, c < n := by
  induction r generalizing coords with
  | zero => simp [productRepeat] at h; simp [h]
  | succ r ih =>
    simp [productRepeat] at h
    obtain ⟨c, hc, rest, hrest, rfl⟩ := h
    intro x hx
    rcases List.mem_cons.mp hx with rfl | hx
    · exact hc
    · exact ih hrest x hx

theorem range_flatMap_range_map {α : Type} (a b : ℕ) (f : ℕ → α) :
    (List.range a).flatMap (fun i => (List.range b).map (fun j => f (i * b + j)))
      = (List.range (a * b)).map f := by
  induction a with
  | zero => simp
  | succ a ih =>
    rw [List.range_succ, List.flatMap_append, ih, Nat.succ_mul, List.range_add, List.map_append,
      List.map_map]
    simp [List.flatMap, Function.comp]

/-- The lexicographic product enumerates base-`n` counting: tuple `k` is `digitsBE n r k`. -/
theorem productRepeat_eq_range_map (n r : ℕ) :
    productRepeat n r = (List.range (n ^ r)).map (digitsBE n r) := by
  induction r with
  | zero => simp [productRepeat, digitsBE, List.range_succ]
  | succ r ih =>
    rw [productRepeat, ih]
    have step : (List.range n).flatMap
        (fun c => (List.range (n ^ r)).map (fun k => digitsBE n (r + 1) (c * n ^ r + k)))
        = (List.range (n * n ^ r)).map (digitsBE n (r + 1)) :=
      range_flatMap_range_map n (n ^ r) (digitsBE n (r + 1))
    rw [pow_succ, Nat.mul_comm (n ^ r) n, ← step]
    apply List.flatMap_congr
    intro c hc
    rw [List.map_map]
    apply List.map_congr_left
    intro k hk
    have hkb : k < n ^ r := List.mem_range.mp hk
    have hpow : 0 < n ^ r := Nat.lt_of_le_of_lt (Nat.zero_le k) hkb
    have h1 : c * n ^ r + k = k + c * n ^ r := by ring
    simp only [Function.comp_def, digitsBE]
    rw [h1, Nat.add_mul_div_right _ _ hpow, Nat.div_eq_of_lt hkb, Nat.zero_add,
      Nat.add_mul_mod_self_right, Nat.mod_eq_of_lt hkb]

theorem zipWith_range'_enumFrom {α β : Type} (f : ℕ → α → β) (l : List α) :
    ∀ s : ℕ, List.zipWith f (List.range' s l.length) l
      = (List.enumFrom s l).map (fun p => f p.1 p.2) := by
  induction l with
  | nil => intro s; rfl
  | cons a l ih =>
    intro s
    rw [List.length_cons, List.range'_succ]
    simp [ih (s + 1)]

theorem zipWith_range_enum {α β : Type} (f : ℕ → α → β) (l : List α) :
    List.zipWith f (List.range l.length) l = l.enum.map (fun p => f p.1 p.2) := by
  rw [List.range_eq_range']
  exact zipWith_range'_enumFrom f l 0

/-- **C1.** For every `n_qubits ≥ 1` and `n_registers ≥ 1`, `compute_discretization` and
`compute_discretization_efficient` return equal arrays: same shape and identical entries in
every position (stated as equality of the row lists). -/
theorem compute_discretization_eq_efficient (n_qubits n_registers : ℕ)
    (hq : 1 ≤ n_qubits) (hr : 1 ≤ n_registers) :
    compute_discretization n_qubits n_registers
      = compute_discretization_efficient n_qubits n_registers := by
  simp only [compute_discretization, compute_discretization_efficient]
  have hlen : ((productRepeat (2 ^ (n_qubits / n_registers)) n_registers).map
      (fun row => row.map
        (fun c : ℕ => ((c : ℚ) + 0.5) / (2 ^ (n_qubits / n_registers) : ℕ)))).length
      = (2 ^ (n_qubits / n_registers)) ^ n_registers := by
    simp [productRepeat_length]
  rw [← hlen, zipWith_range_enum, List.enum_map, List.map_map]
  apply List.map_congr_left
  intro kc _
  obtain ⟨k, coords⟩ := kc
  simp only [Function.comp_def, Prod.map, id, List.map_map]
  apply congrArg
  apply List.map_congr_left
  intro c _
  rw [div_add_div_same]

/-- Witness for C1 at `n_qubits = 3`, `n_registers = 1`. -/
theorem compute_discretization_eq_efficient_witness :
    1 ≤ 3 ∧ 1 ≤ 1 ∧ compute_discretization 3 1 = compute_discretization_efficient 3 1 :=
  ⟨by decide, by decide, compute_discretization_eq_efficient 3 1 (by decide) (by decide)⟩

theorem productRepeat_getElem? (n r k : ℕ) (hk : k < n ^ r) :
    (productRepeat n r)[k]? = some (digitsBE n r k) := by
  rw [productRepeat_eq_range_map, List.getElem?_map, List.getElem?_range hk]
  rfl

/-- **C3.** With `n = 2 ^ (n_qubits // n_registered)`, `compute_discretization` returns an
array of shape `(n ^ n_registered, n_registered + 1)` whose row `k` has first entry `k` and
remaining entries `(c_i + 0.5) / n` for the `k`-th tuple of
`product(range(n), repeat=n_registered)` in lexicographic order (which is the base-`n` digit
string `digitsBE n n_registered k`); every coordinate entry lies strictly between 0 and 1. -/
theorem compute_discretization_grid_spec (n_qubits n_registered : ℕ)
    (hq : 1 ≤ n_qubits) (hr : 1 ≤ n_registered) :
    (compute_discretization n_qubits n_registered).length
        = (2 ^ (n_qubits / n_registered)) ^ n_registered
      ∧ (∀ row ∈ compute_discretization n_qubits n_registered,
          row.length = n_registered + 1)
      ∧ (∀ k : ℕ, k < (2 ^ (n_qubits / n_registered)) ^ n_registered →
          (compute_discretization n_qubits n_registered)[k]?
            = some ((k : ℚ) :: (digitsBE (2 ^ (n_qubits / n_registered)) n_registered k).map
                (fun c : ℕ => ((c : ℚ) + 0.5) / (2 ^ (n_qubits / n_registered) : ℕ))))
      ∧ (∀ row ∈ compute_discretization n_qubits n_registered,
          ∀ x ∈ row.drop 1, 0 < x ∧ x < 1) := by
  have hmem : ∀ row ∈ compute_discretization n_qubits n_registered,
      ∃ k : ℕ, ∃ coords ∈ productRepeat (2 ^ (n_qubits / n_registered)) n_registered,
        row = (k : ℚ) :: coords.map
          (fun c : ℕ => (c : ℚ) / (2 ^ (n_qubits / n_registered) : ℕ)
            + 0.5 / (2 ^ (n_qubits / n_registered) : ℕ)) := by
    intro row hrow
    simp only [compute_discretization, List.mem_map] at hrow
    obtain ⟨kc, hkc, rfl⟩ := hrow
    refine ⟨kc.1, kc.2, ?_, rfl⟩
    rw [List.enum_eq_zip_range] at hkc
    exact (List.of_mem_zip hkc).2
  refine ⟨?_, ?_, ?_, ?_⟩
  · simp [compute_discretization, productRepeat_length]
  · intro row hrow
    obtain ⟨k, coords, hcoords, rfl⟩ := hmem row hrow
    simp [productRepeat_mem_length hcoords]
  · intro k hk
    simp only [compute_discretization, List.getElem?_map, List.getElem?_enum,
      productRepeat_getElem? _ _ _ hk, Option.map_some']
    apply congrArg
    apply congrArg
    apply List.map_congr_left
    intro c _
    rw [div_add_div_same]
  · intro row hrow x hx
    obtain ⟨k, coords, hcoords, rfl⟩ := hmem row hrow
    simp only [List.drop_succ_cons, List.drop_zero, List.mem_map] at hx
    obtain ⟨c, hc, rfl⟩ := hx
    have hcn : c < 2 ^ (n_qubits / n_registered) := productRepeat_mem_lt hcoords c hc
    have hn : (0 : ℚ) < ((2 ^ (n_qubits / n_registered) : ℕ) : ℚ) := by positivity
    have hc1 : (c : ℚ) + 1 ≤ ((2 ^ (n_qubits / n_registered) : ℕ) : ℚ) := by
      exact_mod_cast Nat.succ_le_of_lt hcn
    have h05 : (0 : ℚ) < 0.5 / ((2 ^ (n_qubits / n_registered) : ℕ) : ℚ) :=
      div_pos (by norm_num) hn
    constructor
    · have hge : (0 : ℚ) ≤ (c : ℚ) / ((2 ^ (n_qubits / n_registered) : ℕ) : ℚ) :=
        div_nonneg (by positivity) (le_of_lt hn)
      linarith
    · rw [div_add_div_same, div_lt_one hn]
      have hhalf : (0.5 : ℚ) < 1 := by norm_num
      linarith

/-- Witness for C3 at `n_qubits = 3`, `n_registered = 1`. -/
theorem compute_discretization_grid_spec_witness :
    1 ≤ 3 ∧ 1 ≤ 1
      ∧ ((compute_discretization 3 1).length = (2 ^ (3 / 1)) ^ 1
        ∧ (∀ row ∈ compute_discretization 3 1, row.length = 1 + 1)
        ∧ (∀ k : ℕ, k < (2 ^ (3 / 1)) ^ 1 →
            (compute_discretization 3 1)[k]?
              = some ((k : ℚ) :: (digitsBE (2 ^ (3 / 1)) 1 k).map
                  (fun c : ℕ => ((c : ℚ) + 0.5) / (2 ^ (3 / 1) : ℕ))))
        ∧ (∀ row ∈ compute_discretization 3 1, ∀ x ∈ row.drop 1, 0 < x ∧ x < 1)) :=
  ⟨by decide, by decide, compute_discretization_grid_spec 3 1 (by decide) (by decide)⟩

/-- The indexed loop of `generate_samples`:
`for idx, value in enumerate(results): points[position : position + value] += tile(bin_data[idx, 1:], (value, 1)); position += value`.
The consecutive slices of `points` are modelled by `take`/`drop`; `results` and `bin_data` are
consumed in step, which is `enumerate` plus `bin_data[idx]` as long as
`len(results) <= len(bin_data)` (beyond that Python raises `IndexError`; the claims assume it
does not).  This version is the width-exact restriction: it is the program's behaviour only
when each bin row has exactly `n_registers` coordinates, so every `zipWith` is between
equal-length rows; the general numpy broadcast/shape-error semantics of the `+=` is
`scatterAddNp` below. -/
def scatterAdd : List ℕ → List (List ℚ) → List (List ℚ) → List (List ℚ)
  | [], _, points => points
  | _ :: _, [], points => points
  | value :: rest, row :: bd, points =>
      (points.take value).map (fun p => List.zipWith (· + ·) p (row.drop 1))
        ++ scatterAdd rest bd (points.drop value)

/-- `Transformation.generate_samples`.  The random matrix
`0.5 * width * np.random.uniform(low=-1, high=1, size=(n_shots, n_registers))` of the noisy
branch is passed in as the explicit argument `noise` (the `width` scalar feeds only that
branch); with `noisy=False` the code starts from `np.zeros((n_shots, n_registers))`.  The final
`astype(np.float32)` is an elementwise rounding, not modelled (see file header).  Width-exact
restriction (bin rows of exactly `n_registers` coordinates); full numpy semantics in
`generate_samplesNp`. -/
def generate_samples (results : List ℕ) (bin_data : List (List ℚ)) (n_registers : ℕ)
    (noisy : Bool) (noise : List (List ℚ)) : List (List ℚ) :=
  let n_shots := results.sum
  let points := if noisy then noise
    else List.replicate n_shots (List.replicate n_registers (0 : ℚ))
  scatterAdd results bin_data points

/-- `Transformation.generate_samples_efficient`: `np.repeat(bin_data[:, 1:], results, axis=0)`
(row `i` repeated `results[i]` times, in order), reshaped to `(n_shots, n_registers)` (a no-op
exactly when the bin rows have `n_registers` coordinates), plus the noise-or-zeros matrix.
Noise is passed explicitly as in `generate_samples`.  Width-exact restriction; the reshape's
`ValueError` on mismatched widths is modelled in `generate_samples_efficientNp`. -/
def generate_samples_efficient (results : List ℕ) (bin_data : List (List ℚ)) (n_registers : ℕ)
    (noisy : Bool) (noise : List (List ℚ)) : List (List ℚ) :=
  let n_shots := results.sum
  let noisem := if noisy then noise
    else List.replicate n_shots (List.replicate n_registers (0 : ℚ))
  let bin_coords := bin_data.map (fun row => row.drop 1)
  let expanded_bin_coords :=
    (List.zipWith (fun (row : List ℚ) (v : ℕ) => List.replicate v row) bin_coords results).flatten
  List.zipWith (fun a b => List.zipWith (· + ·) a b) expanded_bin_coords noisem

/-- numpy's in-place row addition `p += t` for a points row `p` of width `n_registers` and a
tiled bin row `t` of width `w`: elementwise when `w == len(p)`, `t`'s single element broadcast
across the row when `w == 1`, and `ValueError` otherwise (`+=` cannot grow its left side). -/
def npBroadcastAddRow (p t : List ℚ) : Except String (List ℚ) :=
  if t.length = p.length then Except.ok (List.zipWith (· + ·) p t)
  else match t with
    | [y] => Except.ok (p.map (fun x => x + y))
    | _ => Except.error "ValueError"

/-- The vectorized `points[position : position + value] += tile(...)` applied row by row with
numpy broadcast semantics; the first shape failure is the raised `ValueError`. -/
def npRowsAdd (t : List ℚ) : List (List ℚ) → Except String (List (List ℚ))
  | [] => Except.ok []
  | p :: ps =>
      match npBroadcastAddRow p t, npRowsAdd t ps with
      | Except.ok q, Except.ok qs => Except.ok (q :: qs)
      | Except.error e, _ => Except.error e
      | Except.ok _, Except.error e => Except.error e

/-- The `generate_samples` loop with numpy's error semantics: `bin_data[idx]` past the end is
`IndexError`; a slice shorter than the `value`-row tile (never reached when the counts
partition `points`, as `n_shots = sum(results)` makes them) is a shape `ValueError`; row
widths follow `npBroadcastAddRow`. -/
def scatterAddNp : List ℕ → List (List ℚ) → List (List ℚ) → Except String (List (List ℚ))
  | [], _, points => Except.ok points
  | _ :: _, [], _ => Except.error "IndexError"
  | value :: rest, row :: bd, points =>
      if value ≤ points.length then
        match npRowsAdd (row.drop 1) (points.take value), scatterAddNp rest bd (points.drop value) with
        | Except.ok updated, Except.ok tail => Except.ok (updated ++ tail)
        | Except.error e, _ => Except.error e
        | Except.ok _, Except.error e => Except.error e
      else Except.error "ValueError"

/-- `Transformation.generate_samples` with numpy's broadcast/shape-error semantics (`noise` as
in `generate_samples`). -/
def generate_samplesNp (results : List ℕ) (bin_data : List (List ℚ)) (n_registers : ℕ)
    (noisy : Bool) (noise : List (List ℚ)) : Except String (List (List ℚ)) :=
  let n_shots := results.sum
  let points := if noisy then noise
    else List.replicate n_shots (List.replicate n_registers (0 : ℚ))
  scatterAddNp results bin_data points

/-- `reshape(n_shots, n_registers)`: the flat element sequence cut into `n_shots` rows of
`n_registers` entries. -/
def chunkRows : ℕ → ℕ → List ℚ → List (List ℚ)
  | 0, _, _ => []
  | n + 1, r, flat => flat.take r :: chunkRows n r (flat.drop r)

/-- `Transformation.generate_samples_efficient` with numpy's error semantics: `np.repeat`
needs `len(results) == len(bin_data)`, and `reshape(n_shots, n_registers)` raises `ValueError`
unless the repeated bin rows hold exactly `n_shots * n_registers` elements. -/
def generate_samples_efficientNp (results : List ℕ) (bin_data : List (List ℚ))
    (n_registers : ℕ) (noisy : Bool) (noise : List (List ℚ)) :
    Except String (List (List ℚ)) :=
  let n_shots := results.sum
  let noisem := if noisy then noise
    else List.replicate n_shots (List.replicate n_registers (0 : ℚ))
  if results.length = bin_data.length then
    let bin_coords := bin_data.map (fun row => row.drop 1)
    let expanded_bin_coords :=
      (List.zipWith (fun (row : List ℚ) (v : ℕ) => List.replicate v row) bin_coords
        results).flatten
    if expanded_bin_coords.flatten.length = n_shots * n_registers then
      Except.ok (List.zipWith (fun a b => List.zipWith (· + ·) a b)
        (chunkRows n_shots n_registers expanded_bin_coords.flatten) noisem)
    else Except.error "ValueError"
  else Except.error "ValueError"

theorem zipWith_add_zero_left (r : ℕ) (l : List ℚ) :
    List.zipWith (· + ·) (List.replicate r (0 : ℚ)) l = l.take r := by
  induction l generalizing r with
  | nil => simp
  | cons x xs ih =>
    cases r with
    | zero => simp
    | succ r => simp [List.replicate_succ, ih]

theorem zipWith_add_zero_right (r : ℕ) (l : List ℚ) :
    List.zipWith (· + ·) l (List.replicate r (0 : ℚ)) = l.take r := by
  induction l generalizing r with
  | nil => simp
  | cons x xs ih =>
    cases r with
    | zero => simp
    | succ r => simp [List.replicate_succ, ih]

theorem zipWith_replicate_same {α β γ : Type} (f : α → β → γ) (n : ℕ) (a : α) (b : β) :
    List.zipWith f (List.replicate n a) (List.replicate n b) = List.replicate n (f a b) := by
  induction n with
  | zero => rfl
  | succ n ih => simp [List.replicate_succ, ih]

theorem scatterAdd_zeros (r : ℕ) :
    ∀ (results : List ℕ) (bd : List (List ℚ)), results.length = bd.length →
      scatterAdd results bd (List.replicate results.sum (List.replicate r (0 : ℚ)))
        = List.zipWith (fun a b => List.zipWith (· + ·) a b)
            ((List.zipWith (fun (row : List ℚ) (v : ℕ) => List.replicate v row)
              (bd.map (fun row => row.drop 1)) results).flatten)
            (List.replicate results.sum (List.replicate r (0 : ℚ))) := by
  intro results
  induction results with
  | nil =>
    intro bd hlen
    simp [scatterAdd]
  | cons v vs ih =>
    intro bd hlen
    cases bd with
    | nil => simp at hlen
    | cons row bdRest =>
      have hlen' : vs.length = bdRest.length := by simpa using hlen
      simp only [List.sum_cons, List.map_cons, List.zipWith_cons_cons, List.flatten_cons,
        scatterAdd]
      rw [List.replicate_add, List.take_append_of_le_length (by simp),
        List.drop_append_of_le_length (by simp)]
      simp only [List.take_replicate, List.drop_replicate, Nat.min_self, Nat.sub_self,
        List.replicate_zero, List.nil_append]
      rw [List.map_replicate, zipWith_add_zero_left]
      rw [List.zipWith_append _ _ _ _ _ (by simp), zipWith_replicate_same,
        zipWith_add_zero_right]
      rw [ih bdRest hlen']

theorem npRowsAdd_replicate (t x y : List ℚ) (v : ℕ)
    (h : npBroadcastAddRow x t = Except.ok y) :
    npRowsAdd t (List.replicate v x) = Except.ok (List.replicate v y) := by
  induction v with
  | zero => rfl
  | succ v ih => simp [npRowsAdd, List.replicate_succ, h, ih]

/-- On bin rows of width exactly `n_registers + 1` the numpy-faithful loop never errors and
agrees with the width-exact `scatterAdd`. -/
theorem scatterAddNp_zeros_ok (r : ℕ) :
    ∀ (results : List ℕ) (bd : List (List ℚ)), results.length = bd.length →
      (∀ row ∈ bd, row.length = r + 1) →
      scatterAddNp results bd (List.replicate results.sum (List.replicate r (0 : ℚ)))
        = Except.ok
            (scatterAdd results bd (List.replicate results.sum (List.replicate r (0 : ℚ)))) := by
  intro results
  induction results with
  | nil => intro bd hlen hcols; rfl
  | cons v vs ih =>
    intro bd hlen hcols
    cases bd with
    | nil => simp at hlen
    | cons row bdRest =>
      have hlen' : vs.length = bdRest.length := by simpa using hlen
      have hcols' : ∀ x ∈ bdRest, x.length = r + 1 := fun x hx =>
        hcols x (List.mem_cons_of_mem _ hx)
      have hrow : (row.drop 1).length = r := by simp [hcols row (List.mem_cons_self _ _)]
      have hp : (row.drop 1).length = (List.replicate r (0 : ℚ)).length := by
        rw [hrow, List.length_replicate]
      have hbr : npBroadcastAddRow (List.replicate r (0 : ℚ)) (row.drop 1)
          = Except.ok (List.zipWith (· + ·) (List.replicate r (0 : ℚ)) (row.drop 1)) := by
        simp only [npBroadcastAddRow]
        rw [if_pos hp]
      simp only [List.sum_cons, scatterAddNp, scatterAdd]
      rw [List.replicate_add, List.take_append_of_le_length (by simp),
        List.drop_append_of_le_length (by simp)]
      simp only [List.take_replicate, List.drop_replicate, Nat.min_self, Nat.sub_self,
        List.replicate_zero, List.nil_append]
      rw [if_pos (by simp), npRowsAdd_replicate _ _ _ v hbr, ih bdRest hlen' hcols',
        List.map_replicate]

theorem expandedRows_length : ∀ (results : List ℕ) (coords : List (List ℚ)),
    results.length = coords.length →
    ((List.zipWith (fun (row : List ℚ) (v : ℕ) => List.replicate v row)
      coords results).flatten).length = results.sum := by
  intro results
  induction results with
  | nil => intro coords _; simp
  | cons v vs ih =>
    intro coords hlen
    cases coords with
    | nil => simp at hlen
    | cons x xs =>
      have hlen' : vs.length = xs.length := by simpa using hlen
      simp [ih xs hlen']

theorem expandedRows_width (r : ℕ) : ∀ (results : List ℕ) (coords : List (List ℚ)),
    (∀ x ∈ coords, x.length = r) →
    ∀ x ∈ (List.zipWith (fun (row : List ℚ) (v : ℕ) => List.replicate v row)
      coords results).flatten, x.length = r := by
  intro results
  induction results with
  | nil => intro coords _ x hx; simp at hx
  | cons v vs ih =>
    intro coords hc x hx
    cases coords with
    | nil => simp at hx
    | cons c cs =>
      simp only [List.zipWith_cons_cons, List.flatten_cons, List.mem_append] at hx
      rcases hx with hx | hx
      · rw [List.eq_of_mem_replicate hx]
        exact hc c (List.mem_cons_self _ _)
      · exact ih cs (fun y hy => hc y (List.mem_cons_of_mem _ hy)) x hx

theorem flatten_length_uniform (r : ℕ) : ∀ rows : List (List ℚ),
    (∀ x ∈ rows, x.length = r) → rows.flatten.length = rows.length * r := by
  intro rows
  induction rows with
  | nil => intro _; simp
  | cons x xs ih =>
    intro h
    simp [h x (List.mem_cons_self _ _), ih (fun y hy => h y (List.mem_cons_of_mem _ hy)),
      Nat.succ_mul, Nat.add_comm]

theorem chunkRows_flatten (r : ℕ) : ∀ rows : List (List ℚ),
    (∀ x ∈ rows, x.length = r) → chunkRows rows.length r rows.flatten = rows := by
  intro rows
  induction rows with
  | nil => intro _; rfl
  | cons x xs ih =>
    intro h
    have hx : x.length = r := h x (List.mem_cons_self _ _)
    have htake : (x ++ xs.flatten).take r = x := by rw [← hx, List.take_left]
    have hdrop : (x ++ xs.flatten).drop r = xs.flatten := by rw [← hx, List.drop_left]
    simp only [List.length_cons, List.flatten_cons, chunkRows]
    rw [htake, hdrop, ih (fun y hy => h y (List.mem_cons_of_mem _ hy))]

/-- On well-shaped data the numpy-faithful efficient generator succeeds with the width-exact
result. -/
theorem generate_samples_efficientNp_ok (results : List ℕ) (bin_data : List (List ℚ))
    (n_registers : ℕ) (noise : List (List ℚ)) (hlen : results.length = bin_data.length)
    (hcols : ∀ row ∈ bin_data, row.length = n_registers + 1) :
    generate_samples_efficientNp results bin_data n_registers false noise
      = Except.ok (generate_samples_efficient results bin_data n_registers false noise) := by
  have hc : ∀ x ∈ bin_data.map (fun row => row.drop 1), x.length = n_registers := by
    intro x hx
    obtain ⟨row, hrow, rfl⟩ := List.mem_map.mp hx
    simp [hcols row hrow]
  have hlen2 : results.length = (bin_data.map (fun row => row.drop 1)).length := by
    simpa using hlen
  have h1 : ((List.zipWith (fun (row : List ℚ) (v : ℕ) => List.replicate v row)
      (bin_data.map (fun row => row.drop 1)) results).flatten).length = results.sum :=
    expandedRows_length results _ hlen2
  have h2 := expandedRows_width n_registers results (bin_data.map (fun row => row.drop 1)) hc
  have h3 : (((List.zipWith (fun (row : List ℚ) (v : ℕ) => List.replicate v row)
      (bin_data.map (fun row => row.drop 1)) results).flatten).flatten).length
      = results.sum * n_registers := by
    rw [flatten_length_uniform n_registers _ h2, h1]
  simp only [generate_samples_efficientNp, generate_samples_efficient]
  rw [if_pos hlen, if_pos h3, ← h1, chunkRows_flatten n_registers _ h2]

/-- **C2 (counterexample).** The frozen claim fails on the code: at `results = [1]`,
`bin_data = [[0, 3]]`, `n_registers = 2`, `noisy=False` — inside the claim's domain
(`len(results) == len(bin_data)`, one column beyond the index column, `n_registers ≥ 1`) —
`generate_samples` broadcasts the width-1 bin row and returns `[[3., 3.]]` while
`generate_samples_efficient` raises `ValueError` in `reshape(1, 2)`, so the two do not return
the same array. -/
theorem generate_samples_eq_efficient_cex :
    generate_samplesNp [1] [[0, 3]] 2 false [] = Except.ok [[3, 3]]
      ∧ generate_samples_efficientNp [1] [[0, 3]] 2 false [] = Except.error "ValueError"
      ∧ generate_samplesNp [1] [[0, 3]] 2 false []
          ≠ generate_samples_efficientNp [1] [[0, 3]] 2 false [] := by
  have h1 : generate_samplesNp [1] [[0, 3]] 2 false [] = Except.ok [[3, 3]] := by
    norm_num [generate_samplesNp, scatterAddNp, npRowsAdd, npBroadcastAddRow, List.replicate]
  have h2 : generate_samples_efficientNp [1] [[0, 3]] 2 false []
      = Except.error "ValueError" := by
    norm_num [generate_samples_efficientNp, List.replicate]
  exact ⟨h1, h2, by rw [h1, h2]; simp⟩

/-- **C2 (amended).** For counts `results` with `len(results) == len(bin_data)`, `bin_data`
rows of width `n_registers + 1` (index column plus exactly `n_registers` coordinates — the
rectangularity the counterexample shows is needed), and `noisy=False`, `generate_samples` and
`generate_samples_efficient` return the same array (same shape, same entries in the same row
order), stated on the numpy-faithful embeddings: both succeed with equal row lists. -/
theorem generate_samples_eq_efficient_amended (results : List ℕ) (bin_data : List (List ℚ))
    (n_registers : ℕ) (noise : List (List ℚ)) (hlen : results.length = bin_data.length)
    (hcols : ∀ row ∈ bin_data, row.length = n_registers + 1) :
    generate_samplesNp results bin_data n_registers false noise
      = generate_samples_efficientNp results bin_data n_registers false noise := by
  have h1 : generate_samplesNp results bin_data n_registers false noise
      = Except.ok (generate_samples results bin_data n_registers false noise) := by
    simp only [generate_samplesNp, generate_samples, Bool.false_eq_true, if_false]
    exact scatterAddNp_zeros_ok n_registers results bin_data hlen hcols
  rw [h1, generate_samples_efficientNp_ok results bin_data n_registers noise hlen hcols]
  refine congrArg Except.ok ?_
  simp only [generate_samples, generate_samples_efficient, Bool.false_eq_true, if_false]
  exact scatterAdd_zeros n_registers results bin_data hlen

/-- Witness for the amended C2: two well-shaped bins with counts `[2, 1]` on a 1-register
grid. -/
theorem generate_samples_eq_efficient_amended_witness :
    ([2, 1] : List ℕ).length = ([[0, 1/4], [1, 3/4]] : List (List ℚ)).length
      ∧ (∀ row ∈ ([[0, 1/4], [1, 3/4]] : List (List ℚ)), row.length = 1 + 1)
      ∧ generate_samplesNp [2, 1] [[0, 1/4], [1, 3/4]] 1 false []
          = generate_samples_efficientNp [2, 1] [[0, 1/4], [1, 3/4]] 1 false [] :=
  ⟨by decide, by decide,
    generate_samples_eq_efficient_amended [2, 1] [[0, 1/4], [1, 3/4]] 1 [] (by decide)
      (by decide)⟩

theorem repeatRows_length (results : List ℕ) (bd : List (List ℚ))
    (hlen : results.length ≤ bd.length) :
    ((List.zipWith (fun (v : ℕ) (row : List ℚ) => List.replicate v (row.drop 1))
      results bd).flatten).length = results.sum := by
  induction results generalizing bd with
  | nil => simp
  | cons v vs ih =>
    cases bd with
    | nil => simp at hlen
    | cons row bdRest =>
      have hlen' : vs.length ≤ bdRest.length := by simpa using hlen
      rw [List.zipWith_cons_cons, List.flatten_cons, List.length_append, List.length_replicate,
        ih bdRest hlen', List.sum_cons]

/-- **C4.** With `noisy=False`, `len(results) <= len(bin_data)` and `bin_data` rows of width
`n_registers + 1`, `generate_samples` returns exactly `sum(results)` rows: for each bin index
`idx` in increasing order, the bin-center coordinates `bin_data[idx, 1:]` repeated
`results[idx]` times (the values the `float32` cast then rounds). -/
theorem generate_samples_reconstructs (results : List ℕ) (bin_data : List (List ℚ))
    (n_registers : ℕ) (noise : List (List ℚ))
    (hlen : results.length ≤ bin_data.length)
    (hcols : ∀ row ∈ bin_data, row.length = n_registers + 1) :
    generate_samples results bin_data n_registers false noise
        = (List.zipWith (fun (v : ℕ) (row : List ℚ) => List.replicate v (row.drop 1))
            results bin_data).flatten
      ∧ (generate_samples results bin_data n_registers false noise).length = results.sum := by
  have main : generate_samples results bin_data n_registers false noise
      = (List.zipWith (fun (v : ℕ) (row : List ℚ) => List.replicate v (row.drop 1))
          results bin_data).flatten := by
    simp only [generate_samples, Bool.false_eq_true, if_false]
    induction results generalizing bin_data with
    | nil => simp [scatterAdd]
    | cons v vs ih =>
      cases bin_data with
      | nil => simp at hlen
      | cons row bdRest =>
        have hlen' : vs.length ≤ bdRest.length := by simpa using hlen
        have hcols' : ∀ r ∈ bdRest, r.length = n_registers + 1 := fun r hr =>
          hcols r (List.mem_cons_of_mem _ hr)
        have hrowlen : (row.drop 1).length = n_registers := by
          simp [hcols row (List.mem_cons_self _ _)]
        simp only [List.sum_cons, List.zipWith_cons_cons, List.flatten_cons, scatterAdd]
        rw [List.replicate_add, List.take_append_of_le_length (by simp),
          List.drop_append_of_le_length (by simp)]
        simp only [List.take_replicate, List.drop_replicate, Nat.min_self, Nat.sub_self,
          List.replicate_zero, List.nil_append]
        rw [List.map_replicate, zipWith_add_zero_left]
        congr 1
        · rw [← hrowlen, List.take_length]
        · exact ih bdRest hlen' hcols'
  exact ⟨main, by rw [main]; exact repeatRows_length results bin_data hlen⟩

/-- Witness for C4: counts `[2, 0, 1]` over a three-bin 1-register grid. -/
theorem generate_samples_reconstructs_witness :
    ([2, 0, 1] : List ℕ).length ≤ ([[0, 1/4], [1, 2/4], [2, 3/4]] : List (List ℚ)).length
      ∧ (∀ row ∈ ([[0, 1/4], [1, 2/4], [2, 3/4]] : List (List ℚ)), row.length = 1 + 1)
      ∧ (generate_samples [2, 0, 1] [[0, 1/4], [1, 2/4], [2, 3/4]] 1 false []
            = (List.zipWith (fun (v : ℕ) (row : List ℚ) => List.replicate v (row.drop 1))
                [2, 0, 1] [[0, 1/4], [1, 2/4], [2, 3/4]]).flatten
          ∧ (generate_samples [2, 0, 1] [[0, 1/4], [1, 2/4], [2, 3/4]] 1 false []).length
              = ([2, 0, 1] : List ℕ).sum) :=
  ⟨by decide, by decide,
    generate_samples_reconstructs [2, 0, 1] [[0, 1/4], [1, 2/4], [2, 3/4]] 1 []
      (by decide) (by decide)⟩

/-- One entry of `problem["variables"]` in the pulp dict export (bounds are nullable in that
format). -/
structure VariableDict where
  name : String
  cat : String
  lowBound : Option Int
  upBound : Option Int
deriving DecidableEq

/-- One `{"name": ..., "value": ...}` coefficient entry. -/
structure CoeffDict where
  name : String
  value : ℚ
deriving DecidableEq

/-- One entry of `problem["constraints"]`. -/
structure ConstraintDict where
  name : String
  coefficients : List CoeffDict
  sense : Int
  constant : ℚ
deriving DecidableEq

/-- The fields of the pulp problem dict that `Ising.map_pulp_to_qiskit` reads:
`problem["variables"]`, `problem["objective"]["coefficients"]`,
`problem["parameters"]["sense"]` and `problem["constraints"]`. -/
structure ProblemDict where
  /-- `problem["variables"]` (the Python key; `variables` is reserved in Lean). -/
  vars : List VariableDict
  objectiveCoefficients : List CoeffDict
  parametersSense : Int
  constraints : List ConstraintDict

/-- A variable declared on the qiskit `QuadraticProgram`: `qp.binary_var(name)` or
`qp.integer_var(lowerbound, upperbound, name)`. -/
inductive QPVariable where
  | binary (name : String)
  | integer (lowerbound upperbound : Option Int) (name : String)
deriving DecidableEq

/-- One `qp.linear_constraint(linear, sense, rhs, name)` call. -/
structure QPConstraint where
  linear : List (String × ℚ)
  sense : String
  rhs : ℚ
  name : String
deriving DecidableEq

/-- The observable state `map_pulp_to_qiskit` builds in the qiskit `QuadraticProgram`. -/
structure QuadraticProgram where
  /-- The declared variables, in declaration order. -/
  vars : List QPVariable
  maximize : Bool
  objectiveLinear : List (String × ℚ)
  linearConstraints : List QPConstraint
deriving DecidableEq

/-- Python dict assignment `d[key] = value` on a string-keyed dict, kept as an
insertion-ordered association list: an existing key keeps its position and gets the new value,
a new key is appended. -/
def dictSet (d : List (String × ℚ)) (key : String) (value : ℚ) : List (String × ℚ) :=
  if d.any (fun p => p.1 = key) then d.map (fun p => if p.1 = key then (key, value) else p)
  else d ++ [(key, value)]

/-- The `arguments[arg["name"]] = arg["value"]` accumulation loops of `map_pulp_to_qiskit`. -/
def buildArguments (coefficients : List CoeffDict) : List (String × ℚ) :=
  coefficients.foldl (fun m arg => dictSet m arg.name arg.value) []

/-- `Ising.map_pulp_to_qiskit`: declares a variable per `"Integer"`-category entry (binary when
the bounds are exactly 0 and 1), maximizes iff `parameters.sense == -1`, and adds each
constraint with sense `"LE"`/`"GE"`/`"E"` for sense `-1`/`1`/other and rhs
`-1 * constraint["constant"]`. -/
def map_pulp_to_qiskit (problem : ProblemDict) : QuadraticProgram :=
  { vars := problem.vars.filterMap (fun variable_dict =>
      if variable_dict.cat = "Integer" then
        some (if variable_dict.lowBound = some 0 ∧ variable_dict.upBound = some 1 then
            QPVariable.binary variable_dict.name
          else
            QPVariable.integer variable_dict.lowBound variable_dict.upBound variable_dict.name)
      else none)
    maximize := decide (problem.parametersSense = -1)
    objectiveLinear := buildArguments problem.objectiveCoefficients
    linearConstraints := problem.constraints.map (fun constraint : ConstraintDict =>
      { linear := buildArguments constraint.coefficients
        sense := if constraint.sense = -1 then "LE"
          else if constraint.sense = 1 then "GE" else "E"
        rhs := -1 * constraint.constant
        name := constraint.name }) }

/-- **C5.** `map_pulp_to_qiskit` maximizes the objective iff `parameters.sense == -1`
(minimizes otherwise), uses the objective coefficient name/value pairs, and adds every
constraint, in order, with sense `"LE"` for `-1`, `"GE"` for `1`, `"E"` otherwise, and
right-hand side the negation of the constraint's `constant`. -/
theorem map_pulp_to_qiskit_objective_constraints (problem : ProblemDict) :
    ((map_pulp_to_qiskit problem).maximize = true ↔ problem.parametersSense = -1)
      ∧ (map_pulp_to_qiskit problem).objectiveLinear
          = buildArguments problem.objectiveCoefficients
      ∧ (map_pulp_to_qiskit problem).linearConstraints
          = problem.constraints.map (fun constraint : ConstraintDict =>
              { linear := buildArguments constraint.coefficients
                sense := if constraint.sense = -1 then "LE"
                  else if constraint.sense = 1 then "GE" else "E"
                rhs := -constraint.constant
                name := constraint.name }) := by
  refine ⟨by simp [map_pulp_to_qiskit], by simp [map_pulp_to_qiskit], ?_⟩
  simp only [map_pulp_to_qiskit]
  apply List.map_congr_left
  intro constraint _
  simp [neg_one_mul]

theorem filterMap_guard_length {α β : Type} (p : α → Prop) [DecidablePred p] (g : α → β)
    (l : List α) :
    (l.filterMap (fun a => if p a then some (g a) else none)).length
      = (l.filter (fun a => decide (p a))).length := by
  induction l with
  | nil => rfl
  | cons a l ih =>
    by_cases h : p a <;> simp [h, ih]

/-- **C6.** `map_pulp_to_qiskit` declares one variable per entry of `problem["variables"]`
whose category is `"Integer"` (entries of any other category are silently omitted), and such a
variable is binary exactly when its bounds are 0 and 1, otherwise an integer variable with
those bounds. -/
theorem map_pulp_to_qiskit_variables (problem : ProblemDict) :
    ((map_pulp_to_qiskit problem).vars.length
        = (problem.vars.filter (fun v => decide (v.cat = "Integer"))).length)
      ∧ (∀ v ∈ problem.vars, v.cat = "Integer" →
          (if v.lowBound = some 0 ∧ v.upBound = some 1 then QPVariable.binary v.name
            else QPVariable.integer v.lowBound v.upBound v.name)
            ∈ (map_pulp_to_qiskit problem).vars)
      ∧ (∀ q ∈ (map_pulp_to_qiskit problem).vars, ∃ v ∈ problem.vars,
          v.cat = "Integer"
            ∧ q = (if v.lowBound = some 0 ∧ v.upBound = some 1 then QPVariable.binary v.name
                else QPVariable.integer v.lowBound v.upBound v.name)) := by
  refine ⟨?_, ?_, ?_⟩
  · simp only [map_pulp_to_qiskit]
    exact filterMap_guard_length (fun v => v.cat = "Integer") _ problem.vars
  · intro v hv hcat
    simp only [map_pulp_to_qiskit, List.mem_filterMap]
    exact ⟨v, hv, by simp [hcat]⟩
  · intro q hq
    simp only [map_pulp_to_qiskit, List.mem_filterMap] at hq
    obtain ⟨v, hv, hval⟩ := hq
    by_cases hcat : v.cat = "Integer"
    · refine ⟨v, hv, hcat, ?_⟩
      simp [hcat] at hval
      exact hval.symm
    · simp [hcat] at hval

/-- `list(locate(pauli_str_list, lambda a: a == 'Z'))`: the increasing list of positions of
`'Z'` in the Pauli string. -/
def locateZ (pauli_str_list : List Char) : List ℕ :=
  (pauli_str_list.enum.filter (fun p => p.2 = 'Z')).map (fun p => p.1)

/-- The `t`/`J` accumulators of `Ising.map` (`dtype=complex` in the source; the claims do not
depend on the scalar carrier, so coefficients are kept rational). -/
structure IsingMatrices where
  t : ℕ → ℚ
  J : ℕ → ℕ → ℚ

/-- One iteration of the reverse-generation loop of `Ising.map`: a term with exactly one `'Z'`
at `i` sets `t[i] = coeff`, exactly two `'Z'`s at `i < j` set `J[i][j] = coeff`, anything else
touches neither matrix. -/
def isingStep (m : IsingMatrices) (term : List Char × ℚ) : IsingMatrices :=
  match locateZ term.1 with
  | [i] => { m with t := Function.update m.t i term.2 }
  | [i, j] => { m with J := Function.update m.J i (Function.update (m.J i) j term.2) }
  | _ => m

/-- The `J`/`t` reverse generation of `Ising.map` over the list of Pauli terms
`(pauli_str, coeff)` of the operator produced by the external `qubo.to_ising()` (the QUBO and
Ising conversions are delegated to qiskit-optimization; the operator's term list is the opaque
input here), starting from zero matrices. -/
def isingFromPauliTerms (terms : List (List Char × ℚ)) : IsingMatrices :=
  terms.foldl isingStep { t := fun _ => 0, J := fun _ _ => 0 }

theorem isingStep_t_eq (m : IsingMatrices) (p : List Char × ℚ) (i : ℕ)
    (h : locateZ p.1 ≠ [i]) : (isingStep m p).t i = m.t i := by
  cases hzp : locateZ p.1 with
  | nil => simp [isingStep, hzp]
  | cons a rest =>
    cases rest with
    | nil =>
      have hai : i ≠ a := fun e => h (by rw [hzp, e])
      simp [isingStep, hzp, Function.update_noteq hai]
    | cons b rest2 =>
      cases rest2 with
      | nil => simp [isingStep, hzp]
      | cons c rest3 => simp [isingStep, hzp]

theorem isingStep_J_eq (m : IsingMatrices) (p : List Char × ℚ) (i j : ℕ)
    (h : locateZ p.1 ≠ [i, j]) : (isingStep m p).J i j = m.J i j := by
  cases hzp : locateZ p.1 with
  | nil => simp [isingStep, hzp]
  | cons a rest =>
    cases rest with
    | nil => simp [isingStep, hzp]
    | cons b rest2 =>
      cases rest2 with
      | cons c rest3 => simp [isingStep, hzp]
      | nil =>
        by_cases hia : i = a
        · subst hia
          have hjb : j ≠ b := fun e => h (by rw [hzp, e])
          simp [isingStep, hzp, Function.update_same, Function.update_noteq hjb]
        · simp [isingStep, hzp, Function.update_noteq hia]

theorem foldl_isingStep_t_eq (terms : List (List Char × ℚ)) (i : ℕ) :
    ∀ m : IsingMatrices, (∀ p ∈ terms, locateZ p.1 ≠ [i]) →
      (terms.foldl isingStep m).t i = m.t i := by
  induction terms with
  | nil => intro m _; rfl
  | cons q qs ih =>
    intro m h
    rw [List.foldl_cons, ih (isingStep m q) (fun p hp => h p (List.mem_cons_of_mem q hp)),
      isingStep_t_eq m q i (h q (List.mem_cons_self q qs))]

theorem foldl_isingStep_J_eq (terms : List (List Char × ℚ)) (i j : ℕ) :
    ∀ m : IsingMatrices, (∀ p ∈ terms, locateZ p.1 ≠ [i, j]) →
      (terms.foldl isingStep m).J i j = m.J i j := by
  induction terms with
  | nil => intro m _; rfl
  | cons q qs ih =>
    intro m h
    rw [List.foldl_cons, ih (isingStep m q) (fun p hp => h p (List.mem_cons_of_mem q hp)),
      isingStep_J_eq m q i j (h q (List.mem_cons_self q qs))]

theorem foldl_isingStep_t_set (terms : List (List Char × ℚ)) (p : List Char × ℚ) (i : ℕ) :
    ∀ m : IsingMatrices, p ∈ terms → locateZ p.1 = [i] →
      terms.Pairwise (fun a b => locateZ a.1 ≠ locateZ b.1) →
      (terms.foldl isingStep m).t i = p.2 := by
  induction terms with
  | nil => intro m hm; simp at hm
  | cons q qs ih =>
    intro m hp hz hdist
    rw [List.foldl_cons]
    rcases List.mem_cons.mp hp with rfl | hp
    · have hq : ∀ r ∈ qs, locateZ r.1 ≠ [i] := fun r hr e =>
        (List.pairwise_cons.mp hdist).1 r hr (by rw [hz, e])
      rw [foldl_isingStep_t_eq qs i (isingStep m p) hq]
      simp [isingStep, hz, Function.update_same]
    · exact ih (isingStep m q) hp hz (List.pairwise_cons.mp hdist).2

theorem foldl_isingStep_J_set (terms : List (List Char × ℚ)) (p : List Char × ℚ) (i j : ℕ) :
    ∀ m : IsingMatrices, p ∈ terms → locateZ p.1 = [i, j] →
      terms.Pairwise (fun a b => locateZ a.1 ≠ locateZ b.1) →
      (terms.foldl isingStep m).J i j = p.2 := by
  induction terms with
  | nil => intro m hm; simp at hm
  | cons q qs ih =>
    intro m hp hz hdist
    rw [List.foldl_cons]
    rcases List.mem_cons.mp hp with rfl | hp
    · have hq : ∀ r ∈ qs, locateZ r.1 ≠ [i, j] := fun r hr e =>
        (List.pairwise_cons.mp hdist).1 r hr (by rw [hz, e])
      rw [foldl_isingStep_J_eq qs i j (isingStep m p) hq]
      simp [isingStep, hz, Function.update_same]
    · exact ih (isingStep m q) hp hz (List.pairwise_cons.mp hdist).2

/-- **C7.** Over the Pauli terms of the operator obtained from the external
qiskit-optimization conversion (with distinct Z-patterns, as `SparsePauliOp` terms are),
`Ising.map`'s reverse generation yields `t[i] =` the coefficient of the term whose only `'Z'`
is at `i`, `J[i][j] =` the coefficient of the term with `'Z'` exactly at `i` (first) and `j`
(second), and terms with any other number of `'Z'`s contribute to neither matrix (positions no
such term touches stay 0). -/
theorem ising_map_JT_spec (terms : List (List Char × ℚ))
    (hdist : terms.Pairwise (fun a b => locateZ a.1 ≠ locateZ b.1)) :
    (∀ p ∈ terms, ∀ i : ℕ, locateZ p.1 = [i] → (isingFromPauliTerms terms).t i = p.2)
      ∧ (∀ p ∈ terms, ∀ i j : ℕ, locateZ p.1 = [i, j] →
          (isingFromPauliTerms terms).J i j = p.2)
      ∧ (∀ i : ℕ, (∀ p ∈ terms, locateZ p.1 ≠ [i]) → (isingFromPauliTerms terms).t i = 0)
      ∧ (∀ i j : ℕ, (∀ p ∈ terms, locateZ p.1 ≠ [i, j]) →
          (isingFromPauliTerms terms).J i j = 0) :=
  ⟨fun p hp i hz => foldl_isingStep_t_set terms p i _ hp hz hdist,
    fun p hp i j hz => foldl_isingStep_J_set terms p i j _ hp hz hdist,
    fun i h => foldl_isingStep_t_eq terms i _ h,
    fun i j h => foldl_isingStep_J_eq terms i j _ h⟩

/-- Witness for C7 on the two-qubit operator `2·ZI + 3·ZZ` (terms `("ZI", 2)`, `("ZZ", 3)`). -/
theorem ising_map_JT_spec_witness :
    ([(['Z', 'I'], (2 : ℚ)), (['Z', 'Z'], 3)] : List (List Char × ℚ)).Pairwise
        (fun a b => locateZ a.1 ≠ locateZ b.1)
      ∧ (isingFromPauliTerms [(['Z', 'I'], (2 : ℚ)), (['Z', 'Z'], 3)]).t 0 = 2
      ∧ (isingFromPauliTerms [(['Z', 'I'], (2 : ℚ)), (['Z', 'Z'], 3)]).J 0 1 = 3
      ∧ (isingFromPauliTerms [(['Z', 'I'], (2 : ℚ)), (['Z', 'Z'], 3)]).t 1 = 0 := by
  have hdist : ([(['Z', 'I'], (2 : ℚ)), (['Z', 'Z'], 3)] : List (List Char × ℚ)).Pairwise
      (fun a b => locateZ a.1 ≠ locateZ b.1) := by
    refine List.Pairwise.cons ?_ (List.pairwise_singleton _ _)
    intro b hb
    rw [List.mem_singleton.mp hb]
    decide
  have h := ising_map_JT_spec [(['Z', 'I'], (2 : ℚ)), (['Z', 'Z'], 3)] hdist
  refine ⟨hdist, ?_, ?_, ?_⟩
  · exact h.1 (['Z', 'I'], (2 : ℚ)) (by simp) 0 (by decide)
  · exact h.2.1 (['Z', 'Z'], (3 : ℚ)) (by simp) 0 1 (by decide)
  · refine h.2.2.1 1 ?_
    intro p hp
    rcases List.mem_cons.mp hp with rfl | hp
    · decide
    · rw [List.mem_singleton.mp hp]
      decide

/-- `Ising._convert_ising_to_qubo`: every entry equal to `-1` becomes 0, all other entries are
unchanged (`np.nditer` walks the array elementwise; the flattened element list stands for the
array, so shape preservation is length preservation). -/
def convert_ising_to_qubo (solution : List ℚ) : List ℚ :=
  solution.map (fun x => if x = -1 then 0 else x)

/-- **C10.** `_convert_ising_to_qubo` returns an array of the same shape in which every `-1`
entry is replaced by 0 and every other entry is unchanged; hence it is idempotent. -/
theorem convert_ising_to_qubo_spec (solution : List ℚ) :
    (convert_ising_to_qubo solution).length = solution.length
      ∧ (∀ k : ℕ, (convert_ising_to_qubo solution)[k]?
          = solution[k]?.map (fun x => if x = -1 then 0 else x))
      ∧ convert_ising_to_qubo (convert_ising_to_qubo solution)
          = convert_ising_to_qubo solution := by
  refine ⟨by simp [convert_ising_to_qubo], ?_, ?_⟩
  · intro k
    simp [convert_ising_to_qubo, List.getElem?_map]
  · simp only [convert_ising_to_qubo, List.map_map]
    apply List.map_congr_left
    intro x _
    by_cases hx : x = -1 <;> simp [hx]

/-- A Python value stored in the benchmarking dicts: a boolean (`True` for the
`"Transformation"` flag), a number, or an opaque payload (the `"inference"` entry can be
anything). -/
inductive PyVal where
  | vbool (b : Bool)
  | vnum (q : ℚ)
  | vopaque (id : ℕ)
deriving DecidableEq

/-- A Python dict with string keys, as an insertion-ordered association list. -/
abbrev PyDict := List (String × PyVal)

/-- `d[key] = value` on a `PyDict` (same semantics as `dictSet`). -/
def pyDictSet (d : PyDict) (key : String) (value : PyVal) : PyDict :=
  if d.any (fun p => p.1 = key) then d.map (fun p => if p.1 = key then (key, value) else p)
  else d ++ [(key, value)]

/-- `d[key]` / `key in d` on a `PyDict`: `some` iff the key is present. -/
def pyDictGet? (d : PyDict) (key : String) : Option PyVal :=
  (d.find? (fun p => p.1 = key)).map (fun p => p.2)

/-- `Transformation.postprocess` without the wall-clock time component of its return pair
(`end_time_measurement` is I/O): `reverse_transform` returns a dict or `None` (`Option`);
`output["Transformation"] = True` raises `TypeError` when `output` is `None`, and
`output["inference"] = input_data["inference"]` runs when `"inference" in input_data`. -/
def postprocess (reverse_transform : PyDict → Option PyDict) (input_data : PyDict) :
    Except String PyDict :=
  match reverse_transform input_data with
  | none => Except.error "TypeError"
  | some output =>
      let output1 := pyDictSet output "Transformation" (PyVal.vbool true)
      let output2 := match pyDictGet? input_data "inference" with
        | some v => pyDictSet output1 "inference" v
        | none => output1
      Except.ok output2

/-- The base class `Transformation.reverse_transform` body: a bare `return`, i.e. `None`. -/
def reverse_transform_default : PyDict → Option PyDict := fun _ => none

/-- **C8.** `postprocess` returns normally exactly when `reverse_transform(input_data)`
returns a dict `d`, in which case the result is `d` with `"Transformation"` set to `True` and,
when `input_data` has an `"inference"` key, `"inference"` set to `input_data["inference"]`;
with the base class's default `reverse_transform` (returning `None`) it always raises
`TypeError`. -/
theorem postprocess_spec (reverse_transform : PyDict → Option PyDict) (input_data : PyDict) :
    ((∃ d, postprocess reverse_transform input_data = Except.ok d)
        ↔ (∃ d, reverse_transform input_data = some d))
      ∧ (∀ d, reverse_transform input_data = some d →
          postprocess reverse_transform input_data = Except.ok
            (match pyDictGet? input_data "inference" with
              | some v =>
                  pyDictSet (pyDictSet d "Transformation" (PyVal.vbool true)) "inference" v
              | none => pyDictSet d "Transformation" (PyVal.vbool true)))
      ∧ (reverse_transform input_data = none →
          postprocess reverse_transform input_data = Except.error "TypeError")
      ∧ postprocess reverse_transform_default input_data = Except.error "TypeError" := by
  refine ⟨?_, ?_, ?_, rfl⟩
  · cases hrt : reverse_transform input_data with
    | none => simp [postprocess, hrt]
    | some d =>
      constructor
      · intro _; exact ⟨d, rfl⟩
      · intro _
        refine ⟨(match pyDictGet? input_data "inference" with
          | some v => pyDictSet (pyDictSet d "Transformation" (PyVal.vbool true)) "inference" v
          | none => pyDictSet d "Transformation" (PyVal.vbool true)), ?_⟩
        simp only [postprocess, hrt]
  · intro d hd
    simp only [postprocess, hd]
  · intro hnone
    simp [postprocess, hnone]

/-- Witness for C8: a `reverse_transform` returning `{"x": 1}` on an input holding an
`"inference"` entry, and the `None` case. -/
theorem postprocess_spec_witness :
    ((fun _ : PyDict => some ([("x", PyVal.vnum 1)] : PyDict)) [("inference", PyVal.vopaque 7)]
        = some [("x", PyVal.vnum 1)])
      ∧ postprocess (fun _ => some [("x", PyVal.vnum 1)]) [("inference", PyVal.vopaque 7)]
          = Except.ok [("x", PyVal.vnum 1), ("Transformation", PyVal.vbool true),
              ("inference", PyVal.vopaque 7)]
      ∧ postprocess reverse_transform_default [("inference", PyVal.vopaque 7)]
          = Except.error "TypeError" := by
  refine ⟨rfl, ?_, ?_⟩
  · rw [(postprocess_spec (fun _ => some [("x", PyVal.vnum 1)])
      [("inference", PyVal.vopaque 7)]).2.1 [("x", PyVal.vnum 1)] rfl]
    rfl
  · exact (postprocess_spec (fun _ => some [("x", PyVal.vnum 1)])
      [("inference", PyVal.vopaque 7)]).2.2.2

/-- Modelled from the spec: the `Device` base class (`src/devices/Device.py`) is not part of
the source excerpt; the spec describes it only as "a `Device` interface expected by one solver
backend", into which a device name string is adapted. We model the observable constructor
state: the `device_name` the `HelperClass` constructor passes to `super().__init__`. -/
structure Device where
  device_name : String
deriving DecidableEq

/-- `HelperClass(device_name)`: calls `super().__init__(device_name=device_name)` and sets
`self.device = device_name`; nothing else happens in the constructor body. -/
structure HelperClass extends Device where
  device : String
deriving DecidableEq

/-- The `HelperClass.__init__` constructor. -/
def HelperClass.make (device_name : String) : HelperClass :=
  { device_name := device_name, device := device_name }

/-- **C9.** For every string `s`, `HelperClass(s)` yields an object satisfying the `Device`
interface whose `device` attribute is `s`, with `s` also passed as `device_name` to the
`Device` base constructor; the constructor (a total function here) does nothing else and never
fails. -/
theorem helperclass_make_spec (s : String) :
    (HelperClass.make s).device = s
      ∧ (HelperClass.make s).toDevice = { device_name := s }
      ∧ (HelperClass.make s).device_name = s
      ∧ HelperClass.make s = { device_name := s, device := s } :=
  ⟨rfl, rfl, rfl, rfl⟩

end Quark
